import Mathlib

/-
Verification of core components of the ritual / cpp_to_rust binding
generator, shallowly embedded in Lean 4.

Embedded source files:
  qt_wrapper_generator/src/cpp_data.rs   (model enrichment and partitioning)
  cpp_core/src/iterator.rs               (iterator bridge)
  ritual/src/crate_writer.rs             (manifest merge, ABI filtering, output clearing)
  ritual/src/rust_info.rs                (caption strategies)
  src/launcher.rs                        (cached model snapshot handling)

Rust HashMap values are modelled as association lists with the usual
map semantics: lookup finds the first matching key, insert replaces the
binding of an existing key in place and otherwise appends. Iteration
order of a map is irrelevant to every verified statement; statements
about map contents are phrased through lookup.
-/

set_option autoImplicit false

namespace Ritual

universe u

variable {α : Type u}

/-- Lookup in an association-list map: first binding of the key. -/
def hmGet : List (String × α) → String → Option α
  | [], _ => none
  | (k, v) :: rest, key => if k = key then some v else hmGet rest key

/-- Key membership test, mirroring HashMap contains_key. -/
def hmContainsKey (l : List (String × α)) (k : String) : Bool :=
  (hmGet l k).isSome

/-- Map insert: replace the binding of an existing key, else append. -/
def hmInsert : List (String × α) → String → α → List (String × α)
  | [], k, v => [(k, v)]
  | (k0, v0) :: rest, k, v =>
    if k0 = k then (k, v) :: rest else (k0, v0) :: hmInsert rest k v

/-- Update the value bound to a key in place (no effect when absent),
mirroring HashMap get_mut on a present key. -/
def hmModify : List (String × α) → String → (α → α) → List (String × α)
  | [], _, _ => []
  | (k0, v0) :: rest, k, f =>
    if k0 = k then (k0, f v0) :: rest else (k0, v0) :: hmModify rest k f

theorem hmGet_insert_self (l : List (String × α)) (k : String) (v : α) :
    hmGet (hmInsert l k v) k = some v := by
  induction l with
  | nil => simp [hmInsert, hmGet]
  | cons hd tl ih =>
    obtain ⟨k0, v0⟩ := hd
    by_cases h : k0 = k
    · simp [hmInsert, h, hmGet]
    · simp [hmInsert, h, hmGet, ih]

theorem hmGet_insert_ne (l : List (String × α)) (k k1 : String) (v : α)
    (h : k ≠ k1) : hmGet (hmInsert l k v) k1 = hmGet l k1 := by
  induction l with
  | nil => simp [hmInsert, hmGet, h]
  | cons hd tl ih =>
    obtain ⟨k0, v0⟩ := hd
    by_cases h0 : k0 = k
    · subst h0
      simp [hmInsert, hmGet, h]
    · simp [hmInsert, h0, hmGet, ih]

theorem hmGet_modify_self (l : List (String × α)) (k : String) (f : α → α) :
    hmGet (hmModify l k f) k = (hmGet l k).map f := by
  induction l with
  | nil => simp [hmModify, hmGet]
  | cons hd tl ih =>
    obtain ⟨k0, v0⟩ := hd
    by_cases h : k0 = k
    · simp [hmModify, h, hmGet]
    · simp [hmModify, h, hmGet, ih]

theorem hmGet_modify_ne (l : List (String × α)) (k k1 : String) (f : α → α)
    (h : k ≠ k1) : hmGet (hmModify l k f) k1 = hmGet l k1 := by
  induction l with
  | nil => simp [hmModify]
  | cons hd tl ih =>
    obtain ⟨k0, v0⟩ := hd
    by_cases h0 : k0 = k
    · subst h0
      simp [hmModify, hmGet, h]
    · simp [hmModify, h0, hmGet, ih]

theorem hmGet_eq_none_of_not_mem_keys (l : List (String × α)) (k : String)
    (h : k ∉ l.map Prod.fst) : hmGet l k = none := by
  induction l with
  | nil => simp [hmGet]
  | cons hd tl ih =>
    obtain ⟨k0, v0⟩ := hd
    simp only [List.map_cons, List.mem_cons] at h
    push_neg at h
    have hne : ¬k0 = k := fun hk => h.1 hk.symm
    simp [hmGet, hne, ih h.2]

theorem hmInsert_keys (l : List (String × α)) (k : String) (v : α) :
    (hmInsert l k v).map Prod.fst =
      if k ∈ l.map Prod.fst then l.map Prod.fst else l.map Prod.fst ++ [k] := by
  induction l with
  | nil => simp [hmInsert]
  | cons hd tl ih =>
    obtain ⟨k0, v0⟩ := hd
    by_cases h : k0 = k
    · subst h
      simp [hmInsert]
    · have hne : ¬k = k0 := fun hk => h hk.symm
      by_cases hmem : k ∈ tl.map Prod.fst
      · simp [hmInsert, h, ih, hmem, hne]
      · simp [hmInsert, h, ih, hmem, hne]

theorem hmModify_keys (l : List (String × α)) (k : String) (f : α → α) :
    (hmModify l k f).map Prod.fst = l.map Prod.fst := by
  induction l with
  | nil => simp [hmModify]
  | cons hd tl ih =>
    obtain ⟨k0, v0⟩ := hd
    by_cases h : k0 = k <;> simp [hmModify, h, ih]

/-
Embedding of qt_wrapper_generator/src/cpp_data.rs.

The files cpp_method.rs, cpp_type.rs and enums.rs of the same crate are
not part of the provided sources; the shapes used from them are modelled
from the specification (natural-language spec, section 3) and from the
record literal constructed in cpp_data.rs.
-/

/-- Modelled from the spec: enums.rs is missing. Method and field
visibility. -/
inductive CppVisibility where
  | Public
  | Protected
  | Private
  deriving DecidableEq

/-- Modelled from the spec: enums.rs is missing. Scope of a method:
a free function or a member of a named class (spec section 3, native
method entity). The class variant is the one matched in cpp_data.rs. -/
inductive CppMethodScope where
  | Global
  | Class (name : String)
  deriving DecidableEq

/-- Modelled from the spec: enums.rs is missing. Origin of a method or
type: the spec (section 3) describes origin as the declaring header plus
an optional source location, which is the IncludeFile variant
constructed and matched in cpp_data.rs. -/
inductive CppTypeOrigin where
  | IncludeFile (include_file : String) (location : Option String)
  deriving DecidableEq

/-- Modelled from the spec: cpp_type.rs is missing. The base of a type
reference; the spec resolves type references by name, and cpp_data.rs
matches a Class variant carrying a name. -/
inductive CppTypeBase where
  | Class (name : String)
  | Other (name : String)
  deriving DecidableEq

/-- Modelled from the spec: cpp_type.rs is missing. A native type
reference as used in base lists, fields and instantiation argument
lists; only its base and structural equality matter here. -/
structure CppType where
  base : CppTypeBase
  deriving DecidableEq

/-- Modelled from the spec: cpp_method.rs is missing. One argument of a
native method (ordered argument list with types, spec section 3). -/
structure CppFunctionArgument where
  name : String
  argument_type : CppType
  deriving DecidableEq

/-- Modelled from the spec: cpp_method.rs is missing. Field list taken
from the record literal constructed in cpp_data.rs (ensure_explicit_destructors). -/
structure CppMethod where
  name : String
  scope : CppMethodScope
  is_virtual : Bool
  is_pure_virtual : Bool
  is_const : Bool
  is_static : Bool
  visibility : CppVisibility
  is_signal : Bool
  return_type : Option CppType
  is_constructor : Bool
  is_destructor : Bool
  operator : Option String
  conversion_operator : Option CppType
  is_variable : Bool
  arguments : List CppFunctionArgument
  allows_variable_arguments : Bool
  original_index : Int
  origin : CppTypeOrigin
  template_arguments : Option (List String)
  deriving DecidableEq

/-- One value of a native enum (cpp_data.rs, EnumValue). -/
structure EnumValue where
  name : String
  value : Int
  deriving DecidableEq

mutual

/-- One field of a native class (cpp_data.rs, CppClassField). -/
inductive CppClassField where
  | mk (name : String) (field_type : CppType) (visibility : CppVisibility)

/-- Kind of a native type entity (cpp_data.rs, CppTypeKind). -/
inductive CppTypeKind where
  | Enum (values : List EnumValue)
  | Class (size : Option Int) (bases : List CppType) (fields : List CppClassField)
      (template_arguments : Option (List String))

end

instance : DecidableEq CppClassField := fun a b => by
  obtain ⟨n1, t1, v1⟩ := a
  obtain ⟨n2, t2, v2⟩ := b
  exact decidable_of_iff (n1 = n2 ∧ t1 = t2 ∧ v1 = v2) (by
    constructor
    · rintro ⟨rfl, rfl, rfl⟩; rfl
    · intro h; cases h; exact ⟨rfl, rfl, rfl⟩)

instance : DecidableEq CppTypeKind := fun a b => by
  cases a with
  | Enum va =>
    cases b with
    | Enum vb =>
      exact decidable_of_iff (va = vb) (by
        constructor
        · rintro rfl; rfl
        · intro h; cases h; rfl)
    | Class _ _ _ _ => exact isFalse (by intro h; cases h)
  | Class s1 b1 f1 t1 =>
    cases b with
    | Enum vb => exact isFalse (by intro h; cases h)
    | Class s2 b2 f2 t2 =>
      exact decidable_of_iff (s1 = s2 ∧ b1 = b2 ∧ f1 = f2 ∧ t1 = t2) (by
        constructor
        · rintro ⟨rfl, rfl, rfl, rfl⟩; rfl
        · intro h; cases h; exact ⟨rfl, rfl, rfl, rfl⟩)

/-- A native type entity (cpp_data.rs, CppTypeData). -/
structure CppTypeData where
  name : String
  header : String
  kind : CppTypeKind
  deriving DecidableEq

/-- Does this type entity have class kind (cpp_data.rs, CppTypeData::is_class). -/
def CppTypeData.is_class (t : CppTypeData) : Bool :=
  match t.kind with
  | CppTypeKind.Class _ _ _ _ => true
  | _ => false

/-- The aggregate model (cpp_data.rs, CppData). The HashMap of template
instantiations is modelled as an association list. -/
structure CppData where
  types : List CppTypeData
  methods : List CppMethod
  template_instantiations : List (String × List (List CppType))
  deriving DecidableEq

/-- The Default value of CppData (all collections empty). -/
def CppData.default : CppData :=
  { types := [], methods := [], template_instantiations := [] }

/-- The scan predicate of ensure_explicit_destructors: a destructor
scoped to the given class. -/
def isDestructorOf (m : CppMethod) (class_name : String) : Bool :=
  m.is_destructor &&
    match m.scope with
    | CppMethodScope.Class name => name = class_name
    | _ => false

/-- The destructor record synthesized by ensure_explicit_destructors
for a class type lacking one (cpp_data.rs lines 87 to 110). -/
def synthesizedDestructor (type1 : CppTypeData) : CppMethod :=
  { name := "~" ++ type1.name
    scope := CppMethodScope.Class type1.name
    is_virtual := false
    is_pure_virtual := false
    is_const := false
    is_static := false
    visibility := CppVisibility.Public
    is_signal := false
    return_type := none
    is_constructor := false
    is_destructor := true
    operator := none
    conversion_operator := none
    is_variable := false
    arguments := []
    allows_variable_arguments := false
    original_index := 1000
    origin := CppTypeOrigin.IncludeFile type1.header none
    template_arguments := none }

/-- One step of the loop of ensure_explicit_destructors: for a class
type, scan the accumulated method list for a destructor scoped to the
class and synthesize one when absent. The scan runs over the methods
accumulated so far because the source pushes into self.methods while
iterating over self.types. -/
def ensureDestructorStep (methods : List CppMethod) (type1 : CppTypeData) :
    List CppMethod :=
  match type1.kind with
  | CppTypeKind.Class _ _ _ _ =>
    if methods.any (fun m => isDestructorOf m type1.name) then methods
    else methods ++ [synthesizedDestructor type1]
  | _ => methods

/-- cpp_data.rs, CppData::ensure_explicit_destructors. -/
def CppData.ensure_explicit_destructors (d : CppData) : CppData :=
  { d with methods := d.types.foldl ensureDestructorStep d.methods }

/-- The include file named by the origin of a method. -/
def CppMethod.includeFile (m : CppMethod) : String :=
  match m.origin with
  | CppTypeOrigin.IncludeFile include_file _ => include_file

/-- First loop body of split_by_headers: route one method into the
partition of the header named by its origin, creating the partition on
first use. -/
def splitAddMethod (result : List (String × CppData)) (method : CppMethod) :
    List (String × CppData) :=
  match method.origin with
  | CppTypeOrigin.IncludeFile include_file _ =>
    let result :=
      if hmContainsKey result include_file then result
      else hmInsert result include_file CppData.default
    hmModify result include_file
      (fun p => { p with methods := p.methods ++ [method] })

/-- Second loop body of split_by_headers: route one type into the
partition of its declaring header, and for a class-kind type copy its
template-instantiation entry (when present) into the same partition. -/
def splitAddType (d : CppData) (result : List (String × CppData))
    (tp : CppTypeData) : List (String × CppData) :=
  let result :=
    if hmContainsKey result tp.header then result
    else hmInsert result tp.header CppData.default
  let result := hmModify result tp.header
    (fun p => { p with types := p.types ++ [tp] })
  match tp.kind with
  | CppTypeKind.Class _ _ _ _ =>
    match hmGet d.template_instantiations tp.name with
    | some ins =>
      hmModify result tp.header
        (fun p =>
          { p with
            template_instantiations := hmInsert p.template_instantiations tp.name ins })
    | none => result
  | _ => result

/-- cpp_data.rs, CppData::split_by_headers. -/
def CppData.split_by_headers (d : CppData) : List (String × CppData) :=
  d.types.foldl (splitAddType d) (d.methods.foldl splitAddMethod [])

/-- The partition of a given header in the result of split_by_headers
(the Default aggregate when the header has no partition). -/
def CppData.partitionAt (d : CppData) (h : String) : CppData :=
  (hmGet d.split_by_headers h).getD CppData.default

theorem isDestructorOf_iff (m : CppMethod) (n : String) :
    isDestructorOf m n = true ↔
      (m.is_destructor = true ∧ m.scope = CppMethodScope.Class n) := by
  unfold isDestructorOf
  cases hs : m.scope with
  | Global => simp
  | Class c =>
    by_cases hc : c = n
    · subst hc; simp
    · simp [hc]

theorem isDestructorOf_synthesized (t : CppTypeData) :
    isDestructorOf (synthesizedDestructor t) t.name = true := by
  simp [isDestructorOf, synthesizedDestructor]

/-- The destructor-completion fold only appends, and everything it
appends is a synthesized destructor of some class type of the list. -/
theorem ensureFold_eq_append (ts : List CppTypeData) (ms : List CppMethod) :
    ∃ extra, ts.foldl ensureDestructorStep ms = ms ++ extra ∧
      ∀ m ∈ extra, ∃ t ∈ ts, t.is_class = true ∧ m = synthesizedDestructor t := by
  induction ts generalizing ms with
  | nil => exact ⟨[], by simp⟩
  | cons t ts ih =>
    rw [List.foldl_cons]
    cases hk : t.kind with
    | Enum values =>
      have hstep : ensureDestructorStep ms t = ms := by
        unfold ensureDestructorStep; rw [hk]
      rw [hstep]
      obtain ⟨extra, heq, hall⟩ := ih ms
      exact ⟨extra, heq, fun m hm =>
        let ⟨u, hu, hcu, hmu⟩ := hall m hm
        ⟨u, List.mem_cons_of_mem _ hu, hcu, hmu⟩⟩
    | Class s b f ta =>
      have hcl : t.is_class = true := by simp [CppTypeData.is_class, hk]
      by_cases hfound : ms.any (fun m => isDestructorOf m t.name) = true
      · have hstep : ensureDestructorStep ms t = ms := by
          unfold ensureDestructorStep; rw [hk]; simp [hfound]
        rw [hstep]
        obtain ⟨extra, heq, hall⟩ := ih ms
        exact ⟨extra, heq, fun m hm =>
          let ⟨u, hu, hcu, hmu⟩ := hall m hm
          ⟨u, List.mem_cons_of_mem _ hu, hcu, hmu⟩⟩
      · have hstep : ensureDestructorStep ms t = ms ++ [synthesizedDestructor t] := by
          unfold ensureDestructorStep; rw [hk]; simp [hfound]
        rw [hstep]
        obtain ⟨extra, heq, hall⟩ := ih (ms ++ [synthesizedDestructor t])
        refine ⟨synthesizedDestructor t :: extra, by simpa using heq, ?_⟩
        intro m hm
        rcases List.mem_cons.mp hm with hm1 | hm2
        · exact ⟨t, List.mem_cons_self _ _, hcl, hm1⟩
        · obtain ⟨u, hu, hcu, hmu⟩ := hall m hm2
          exact ⟨u, List.mem_cons_of_mem _ hu, hcu, hmu⟩

/-- The initial methods survive the destructor-completion fold. -/
theorem ensureFold_mem (ts : List CppTypeData) (ms : List CppMethod)
    (m : CppMethod) (hm : m ∈ ms) : m ∈ ts.foldl ensureDestructorStep ms := by
  obtain ⟨extra, heq, _⟩ := ensureFold_eq_append ts ms
  rw [heq]
  exact List.mem_append_left _ hm

/-- Totality of the destructor-completion fold: every class type of the
list ends up with a destructor scoped to it. -/
theorem ensureFold_total (ts : List CppTypeData) (ms : List CppMethod)
    (t : CppTypeData) (ht : t ∈ ts) (hc : t.is_class = true) :
    ∃ m ∈ ts.foldl ensureDestructorStep ms, isDestructorOf m t.name = true := by
  induction ts generalizing ms with
  | nil => cases ht
  | cons u ts ih =>
    rw [List.foldl_cons]
    rcases List.mem_cons.mp ht with rfl | htl
    · cases hk : t.kind with
      | Enum values => simp [CppTypeData.is_class, hk] at hc
      | Class s b f ta =>
        by_cases hfound : ms.any (fun m => isDestructorOf m t.name) = true
        · obtain ⟨m, hmem, hdm⟩ := List.any_eq_true.mp hfound
          have hstep : ensureDestructorStep ms t = ms := by
            unfold ensureDestructorStep; rw [hk]; simp [hfound]
          rw [hstep]
          exact ⟨m, ensureFold_mem ts ms m hmem, hdm⟩
        · have hstep : ensureDestructorStep ms t = ms ++ [synthesizedDestructor t] := by
            unfold ensureDestructorStep; rw [hk]; simp [hfound]
          rw [hstep]
          refine ⟨synthesizedDestructor t, ?_, isDestructorOf_synthesized t⟩
          exact ensureFold_mem ts _ _ (List.mem_append_right _ (List.mem_singleton.mpr rfl))
    · exact ih (ensureDestructorStep ms u) htl

/-- The destructor-completion fold is a no-op when every class type of
the list already has a destructor scoped to it. -/
theorem ensureFold_noop (ts : List CppTypeData) (ms : List CppMethod)
    (h : ∀ t ∈ ts, t.is_class = true →
      ∃ m ∈ ms, isDestructorOf m t.name = true) :
    ts.foldl ensureDestructorStep ms = ms := by
  induction ts with
  | nil => rfl
  | cons t ts ih =>
    rw [List.foldl_cons]
    have hstep : ensureDestructorStep ms t = ms := by
      unfold ensureDestructorStep
      cases hk : t.kind with
      | Enum values => rfl
      | Class s b f ta =>
        have hcl : t.is_class = true := by simp [CppTypeData.is_class, hk]
        obtain ⟨m, hmem, hdm⟩ := h t (List.mem_cons_self _ _) hcl
        have : ms.any (fun m => isDestructorOf m t.name) = true :=
          List.any_eq_true.mpr ⟨m, hmem, hdm⟩
        simp [this]
    rw [hstep]
    exact ih (fun u hu hcu => h u (List.mem_cons_of_mem _ hu) hcu)

/-- C2: ensure_explicit_destructors is idempotent and total: running it
twice yields the same model as running it once (no duplicate
destructors, because existing methods are scanned for a destructor
scoped to each class before one is synthesized), and in the result
every class-kind type has at least one destructor method scoped to
it. -/
theorem ensure_explicit_destructors_idempotent_total (d : CppData) :
    d.ensure_explicit_destructors.ensure_explicit_destructors =
      d.ensure_explicit_destructors ∧
    ∀ t ∈ d.ensure_explicit_destructors.types, t.is_class = true →
      ∃ m ∈ d.ensure_explicit_destructors.methods,
        m.is_destructor = true ∧ m.scope = CppMethodScope.Class t.name := by
  constructor
  · unfold CppData.ensure_explicit_destructors
    simp only
    congr 1
    apply ensureFold_noop
    intro t ht hc
    obtain ⟨m, hm, hdm⟩ := ensureFold_total d.types d.methods t ht hc
    exact ⟨m, hm, hdm⟩
  · intro t ht hc
    have ht2 : t ∈ d.types := ht
    obtain ⟨m, hm, hdm⟩ := ensureFold_total d.types d.methods t ht2 hc
    exact ⟨m, hm, (isDestructorOf_iff m t.name).mp hdm⟩

/-- A concrete one-class model used to instantiate verified statements. -/
def widgetType : CppTypeData :=
  { name := "Widget", header := "widget.h"
    kind := CppTypeKind.Class (some 4) [] [] none }

/-- A concrete model holding only widgetType and no methods. -/
def widgetModel : CppData :=
  { types := [widgetType], methods := [], template_instantiations := [] }

/-- Witness for C2 at the concrete model widgetModel. -/
theorem ensure_explicit_destructors_idempotent_total_witness :
    widgetType ∈ widgetModel.ensure_explicit_destructors.types ∧
    widgetType.is_class = true ∧
    ∃ m ∈ widgetModel.ensure_explicit_destructors.methods,
      m.is_destructor = true ∧ m.scope = CppMethodScope.Class widgetType.name :=
  ⟨by decide, by decide,
    (ensure_explicit_destructors_idempotent_total widgetModel).2 widgetType
      (by decide) (by decide)⟩

/-- C9: for every class-kind type lacking a destructor scoped to it
(and whose name does not also name a class declared in another header),
the destructor synthesized by ensure_explicit_destructors is
non-virtual, not pure-virtual, public, scoped to that class, flagged as
a destructor and not a constructor, takes no arguments, and its origin
names the declaring header of that class. -/
theorem synthesized_destructor_shape (d : CppData) (t : CppTypeData)
    (ht : t ∈ d.types) (hc : t.is_class = true)
    (hnone : ∀ m ∈ d.methods, isDestructorOf m t.name = false)
    (hsame : ∀ u ∈ d.types, u.is_class = true → u.name = t.name →
      u.header = t.header) :
    ∃ m ∈ d.ensure_explicit_destructors.methods,
      m.is_virtual = false ∧ m.is_pure_virtual = false ∧
      m.visibility = CppVisibility.Public ∧
      m.scope = CppMethodScope.Class t.name ∧
      m.is_destructor = true ∧ m.is_constructor = false ∧
      m.arguments = [] ∧
      m.origin = CppTypeOrigin.IncludeFile t.header none := by
  obtain ⟨m, hm, hdm⟩ := ensureFold_total d.types d.methods t ht hc
  obtain ⟨extra, heq, hall⟩ := ensureFold_eq_append d.types d.methods
  have hm2 : m ∈ d.methods ++ extra := by
    rw [← heq]; exact hm
  rcases List.mem_append.mp hm2 with hold | hnew
  · have := hnone m hold
    rw [hdm] at this
    cases this
  · obtain ⟨u, hu, hcu, hmu⟩ := hall m hnew
    have hscope : m.scope = CppMethodScope.Class t.name :=
      ((isDestructorOf_iff m t.name).mp hdm).2
    have huname : u.name = t.name := by
      rw [hmu] at hscope
      simpa [synthesizedDestructor] using hscope
    have huheader : u.header = t.header := hsame u hu hcu huname
    refine ⟨m, hm, ?_⟩
    rw [hmu]
    simp [synthesizedDestructor, huname, huheader]

/-- Witness for C9 at the concrete model widgetModel. -/
theorem synthesized_destructor_shape_witness :
    widgetType ∈ widgetModel.types ∧ widgetType.is_class = true ∧
    ∃ m ∈ widgetModel.ensure_explicit_destructors.methods,
      m.is_virtual = false ∧ m.is_pure_virtual = false ∧
      m.visibility = CppVisibility.Public ∧
      m.scope = CppMethodScope.Class widgetType.name ∧
      m.is_destructor = true ∧ m.is_constructor = false ∧
      m.arguments = [] ∧
      m.origin = CppTypeOrigin.IncludeFile widgetType.header none :=
  ⟨by decide, by decide,
    synthesized_destructor_shape widgetModel widgetType (by decide) (by decide)
      (by decide) (by decide)⟩

theorem splitAddMethod_get_self (R : List (String × CppData)) (m : CppMethod) :
    hmGet (splitAddMethod R m) m.includeFile =
      some (let p := (hmGet R m.includeFile).getD CppData.default
            { p with methods := p.methods ++ [m] }) := by
  unfold splitAddMethod CppMethod.includeFile
  cases horigin : m.origin with
  | IncludeFile f loc =>
    simp only
    by_cases hc : hmContainsKey R f = true
    · obtain ⟨p, hp⟩ := Option.isSome_iff_exists.mp (by simpa [hmContainsKey] using hc)
      simp [hc, hmGet_modify_self, hp]
    · have hnone : hmGet R f = none := by
        rcases h0 : hmGet R f with _ | p
        · rfl
        · exact absurd (by simp [hmContainsKey, h0]) hc
      simp [hc, hmGet_modify_self, hmGet_insert_self, hnone, CppData.default]

theorem splitAddMethod_get_ne (R : List (String × CppData)) (m : CppMethod)
    (h : String) (hne : m.includeFile ≠ h) :
    hmGet (splitAddMethod R m) h = hmGet R h := by
  unfold splitAddMethod
  cases horigin : m.origin with
  | IncludeFile f loc =>
    have hf : f ≠ h := by
      intro hfh
      exact hne (by simp [CppMethod.includeFile, horigin, hfh])
    simp only
    by_cases hc : hmContainsKey R f = true
    · simp [hc, hmGet_modify_ne _ _ _ _ hf]
    · simp [hc, hmGet_modify_ne _ _ _ _ hf, hmGet_insert_ne _ _ _ _ hf]

theorem splitMethodsFold_get (ms : List CppMethod)
    (R : List (String × CppData)) (h : String) :
    hmGet (ms.foldl splitAddMethod R) h =
      match hmGet R h with
      | some p =>
        some { p with methods := p.methods ++ ms.filter (fun m => m.includeFile = h) }
      | none =>
        if ms.filter (fun m => m.includeFile = h) = [] then none
        else some { CppData.default with
                    methods := ms.filter (fun m => m.includeFile = h) } := by
  induction ms generalizing R with
  | nil =>
    cases hR : hmGet R h with
    | none => simp [hR]
    | some p => simp [hR]
  | cons m ms ih =>
    rw [List.foldl_cons]
    by_cases hh : m.includeFile = h
    · have hself := splitAddMethod_get_self R m
      rw [hh] at hself
      rw [ih, hself]
      cases hR : hmGet R h with
      | none =>
        simp [hR] at hself ⊢
        simp [hh, CppData.default, List.filter_cons]
      | some p =>
        simp [hR] at hself ⊢
        simp [hh, List.filter_cons]
    · rw [ih, splitAddMethod_get_ne R m h hh]
      have hfilter : (m :: ms).filter (fun m => decide (m.includeFile = h)) =
          ms.filter (fun m => decide (m.includeFile = h)) := by
        simp [List.filter_cons, hh]
      cases hR : hmGet R h with
      | none => simp [hfilter]
      | some p => simp [hfilter]

/-- The effect of one split_by_headers type step on the partition of
the declaring header of the type. -/
def typeStepVal (d : CppData) (tp : CppTypeData) (p : CppData) : CppData :=
  let p1 := { p with types := p.types ++ [tp] }
  match tp.kind with
  | CppTypeKind.Class _ _ _ _ =>
    match hmGet d.template_instantiations tp.name with
    | some ins =>
      { p1 with
        template_instantiations := hmInsert p1.template_instantiations tp.name ins }
    | none => p1
  | _ => p1

/-- The instantiation-registry contribution of one type to the
partition of a given header. -/
def tiFoldStep (d : CppData) (hdr : String)
    (acc : List (String × List (List CppType))) (t : CppTypeData) :
    List (String × List (List CppType)) :=
  if t.header = hdr then
    match t.kind with
    | CppTypeKind.Class _ _ _ _ =>
      match hmGet d.template_instantiations t.name with
      | some ins => hmInsert acc t.name ins
      | none => acc
    | _ => acc
  else acc

/-- The instantiation-registry contribution of a type list to the
partition of a given header. -/
def tiFold (d : CppData) (hdr : String)
    (acc : List (String × List (List CppType))) (ts : List CppTypeData) :
    List (String × List (List CppType)) :=
  ts.foldl (tiFoldStep d hdr) acc

theorem typeStepVal_methods (d : CppData) (tp : CppTypeData) (p : CppData) :
    (typeStepVal d tp p).methods = p.methods := by
  unfold typeStepVal
  cases tp.kind with
  | Enum values => rfl
  | Class s b f ta =>
    cases hmGet d.template_instantiations tp.name <;> rfl

theorem typeStepVal_types (d : CppData) (tp : CppTypeData) (p : CppData) :
    (typeStepVal d tp p).types = p.types ++ [tp] := by
  unfold typeStepVal
  cases tp.kind with
  | Enum values => rfl
  | Class s b f ta =>
    cases hmGet d.template_instantiations tp.name <;> rfl

theorem typeStepVal_ti (d : CppData) (tp : CppTypeData) (p : CppData) :
    (typeStepVal d tp p).template_instantiations =
      tiFoldStep d tp.header p.template_instantiations tp := by
  unfold typeStepVal tiFoldStep
  cases tp.kind with
  | Enum values => simp
  | Class s b f ta =>
    cases hmGet d.template_instantiations tp.name <;> simp

theorem tiFoldStep_other (d : CppData) (hdr : String)
    (acc : List (String × List (List CppType))) (t : CppTypeData)
    (h : t.header ≠ hdr) : tiFoldStep d hdr acc t = acc := by
  unfold tiFoldStep
  simp [h]

theorem splitAddType_get_self (d : CppData) (R : List (String × CppData))
    (tp : CppTypeData) :
    hmGet (splitAddType d R tp) tp.header =
      some (typeStepVal d tp ((hmGet R tp.header).getD CppData.default)) := by
  unfold splitAddType
  have hbase : ∀ R1 : List (String × CppData),
      hmGet R1 tp.header = some ((hmGet R tp.header).getD CppData.default) →
      hmGet
        (match tp.kind with
         | CppTypeKind.Class s b f ta =>
           match hmGet d.template_instantiations tp.name with
           | some ins =>
             hmModify (hmModify R1 tp.header
               (fun p => { p with types := p.types ++ [tp] })) tp.header
               (fun p =>
                 { p with
                   template_instantiations :=
                     hmInsert p.template_instantiations tp.name ins })
           | none =>
             hmModify R1 tp.header (fun p => { p with types := p.types ++ [tp] })
         | _ => hmModify R1 tp.header (fun p => { p with types := p.types ++ [tp] }))
        tp.header =
      some (typeStepVal d tp ((hmGet R tp.header).getD CppData.default)) := by
    intro R1 h1
    cases hk : tp.kind with
    | Enum values =>
      simp [hmGet_modify_self, h1, typeStepVal, hk]
    | Class s b f ta =>
      cases hins : hmGet d.template_instantiations tp.name with
      | none => simp [hmGet_modify_self, h1, typeStepVal, hk, hins]
      | some ins => simp [hmGet_modify_self, h1, typeStepVal, hk, hins]
  by_cases hc : hmContainsKey R tp.header = true
  · obtain ⟨p, hp⟩ := Option.isSome_iff_exists.mp (by simpa [hmContainsKey] using hc)
    have := hbase R (by simp [hp])
    simpa [hc] using this
  · have hnone : hmGet R tp.header = none := by
      rcases h0 : hmGet R tp.header with _ | p
      · rfl
      · exact absurd (by simp [hmContainsKey, h0]) hc
    have := hbase (hmInsert R tp.header CppData.default)
      (by simp [hmGet_insert_self, hnone])
    simpa [hc] using this

theorem splitAddType_get_ne (d : CppData) (R : List (String × CppData))
    (tp : CppTypeData) (h : String) (hne : tp.header ≠ h) :
    hmGet (splitAddType d R tp) h = hmGet R h := by
  unfold splitAddType
  have hmid : ∀ R1 : List (String × CppData),
      hmGet R1 h = hmGet R h →
      hmGet
        (match tp.kind with
         | CppTypeKind.Class s b f ta =>
           match hmGet d.template_instantiations tp.name with
           | some ins =>
             hmModify (hmModify R1 tp.header
               (fun p => { p with types := p.types ++ [tp] })) tp.header
               (fun p =>
                 { p with
                   template_instantiations :=
                     hmInsert p.template_instantiations tp.name ins })
           | none =>
             hmModify R1 tp.header (fun p => { p with types := p.types ++ [tp] })
         | _ => hmModify R1 tp.header (fun p => { p with types := p.types ++ [tp] }))
        h = hmGet R h := by
    intro R1 h1
    cases hk : tp.kind with
    | Enum values =>
      simp [hmGet_modify_ne _ _ _ _ hne, h1]
    | Class s b f ta =>
      cases hins : hmGet d.template_instantiations tp.name with
      | none => simp [hins, hmGet_modify_ne _ _ _ _ hne, h1]
      | some ins => simp [hins, hmGet_modify_ne _ _ _ _ hne, h1]
  by_cases hc : hmContainsKey R tp.header = true
  · simpa [hc] using hmid R rfl
  · simpa [hc] using
      hmid (hmInsert R tp.header CppData.default) (hmGet_insert_ne _ _ _ _ hne)

theorem splitTypesFold_get (d : CppData) (ts : List CppTypeData)
    (R : List (String × CppData)) (h : String) :
    hmGet (ts.foldl (splitAddType d) R) h =
      match hmGet R h with
      | some p =>
        some { p with
               types := p.types ++ ts.filter (fun t => t.header = h)
               template_instantiations :=
                 tiFold d h p.template_instantiations ts }
      | none =>
        if ts.filter (fun t => t.header = h) = [] then none
        else
          some { CppData.default with
                 types := ts.filter (fun t => t.header = h)
                 template_instantiations := tiFold d h [] ts } := by
  induction ts generalizing R with
  | nil =>
    cases hR : hmGet R h with
    | none => simp [hR, tiFold]
    | some p => simp [hR, tiFold]
  | cons tp ts ih =>
    rw [List.foldl_cons]
    by_cases hh : tp.header = h
    · have hself := splitAddType_get_self d R tp
      rw [hh] at hself
      rw [ih, hself]
      have hti : tiFoldStep d h ((hmGet R h).getD CppData.default).template_instantiations tp =
          (typeStepVal d tp ((hmGet R h).getD CppData.default)).template_instantiations := by
        rw [typeStepVal_ti, hh]
      cases hR : hmGet R h with
      | none =>
        simp only [hR, Option.getD_none] at hself ⊢
        have hti2 : tiFoldStep d h [] tp =
            (typeStepVal d tp
              { types := [], methods := [],
                template_instantiations := [] }).template_instantiations := by
          rw [typeStepVal_ti, hh]
        simp [typeStepVal_types, typeStepVal_methods, List.filter_cons, hh,
          tiFold, ← hti2, CppData.default]
      | some p =>
        simp only [hR, Option.getD_some] at hself hti ⊢
        simp [typeStepVal_types, typeStepVal_methods, List.filter_cons, hh,
          tiFold, ← hti]
    · rw [ih, splitAddType_get_ne d R tp h hh]
      have hfilter : (tp :: ts).filter (fun t => decide (t.header = h)) =
          ts.filter (fun t => decide (t.header = h)) := by
        simp [List.filter_cons, hh]
      have hstep : tiFoldStep d h = fun acc t => tiFoldStep d h acc t := rfl
      cases hR : hmGet R h with
      | none => simp [hfilter, tiFold, tiFoldStep_other d h _ tp hh]
      | some p => simp [hfilter, tiFold, tiFoldStep_other d h _ tp hh]

/-- Full characterization of the partition map produced by
split_by_headers: a partition exists for a header exactly when some
method or type names it, and then holds exactly the methods whose
origin names it, the types declaring it, and the instantiation-registry
contribution of the types declaring it. -/
theorem split_by_headers_get (d : CppData) (h : String) :
    hmGet d.split_by_headers h =
      if d.methods.filter (fun m => m.includeFile = h) = [] ∧
         d.types.filter (fun t => t.header = h) = [] then none
      else
        some { types := d.types.filter (fun t => t.header = h)
               methods := d.methods.filter (fun m => m.includeFile = h)
               template_instantiations := tiFold d h [] d.types } := by
  unfold CppData.split_by_headers
  rw [splitTypesFold_get, splitMethodsFold_get]
  have hbase : hmGet ([] : List (String × CppData)) h = none := rfl
  rw [hbase]
  by_cases hfm : d.methods.filter (fun m => m.includeFile = h) = []
  · by_cases hft : d.types.filter (fun t => t.header = h) = []
    · simp [hfm, hft]
    · simp [hfm, hft, CppData.default]
  · by_cases hft : d.types.filter (fun t => t.header = h) = []
    · simp [hfm, hft, CppData.default]
    · simp [hfm, hft, CppData.default]

/-- Lookup characterization of the instantiation-registry contribution
of a type list. -/
theorem tiFold_get (d : CppData) (hdr : String) (ts : List CppTypeData)
    (acc : List (String × List (List CppType))) (k : String) :
    hmGet (tiFold d hdr acc ts) k =
      if (∃ t ∈ ts, t.header = hdr ∧ t.is_class = true ∧ t.name = k) ∧
         (hmGet d.template_instantiations k).isSome = true
      then hmGet d.template_instantiations k
      else hmGet acc k := by
  induction ts generalizing acc with
  | nil => simp [tiFold]
  | cons t ts ih =>
    have hfold : tiFold d hdr acc (t :: ts) =
        tiFold d hdr (tiFoldStep d hdr acc t) ts := rfl
    rw [hfold, ih]
    by_cases hh : t.header = hdr
    · cases hk : t.kind with
      | Enum values =>
        have hcl : t.is_class = false := by simp [CppTypeData.is_class, hk]
        have hstep : tiFoldStep d hdr acc t = acc := by
          unfold tiFoldStep; rw [hk]; simp
        rw [hstep]
        have hex : (∃ u ∈ t :: ts, u.header = hdr ∧ u.is_class = true ∧ u.name = k) ↔
            (∃ u ∈ ts, u.header = hdr ∧ u.is_class = true ∧ u.name = k) := by
          constructor
          · rintro ⟨u, hu, h1, h2, h3⟩
            rcases List.mem_cons.mp hu with rfl | hutl
            · rw [hcl] at h2; cases h2
            · exact ⟨u, hutl, h1, h2, h3⟩
          · rintro ⟨u, hu, h1, h2, h3⟩
            exact ⟨u, List.mem_cons_of_mem _ hu, h1, h2, h3⟩
        rw [if_congr (and_congr_left fun _ => hex) rfl rfl]
      | Class s b f ta =>
        have hcl : t.is_class = true := by simp [CppTypeData.is_class, hk]
        by_cases hnk : t.name = k
        · cases hins : hmGet d.template_instantiations k with
          | none =>
            have hstep : tiFoldStep d hdr acc t = acc := by
              unfold tiFoldStep; rw [hk]
              simp [hh, hnk, hins]
            rw [hstep]
            simp [hins]
          | some ins =>
            have hstep : tiFoldStep d hdr acc t = hmInsert acc k ins := by
              unfold tiFoldStep; rw [hk]
              simp [hh, hnk, hins]
            rw [hstep]
            have hex : (∃ u ∈ t :: ts, u.header = hdr ∧ u.is_class = true ∧ u.name = k) :=
              ⟨t, List.mem_cons_self _ _, hh, hcl, hnk⟩
            simp only [hins, Option.isSome_some, and_true, hex, if_true]
            by_cases hrest : ∃ u ∈ ts, u.header = hdr ∧ u.is_class = true ∧ u.name = k
            · simp [hrest]
            · simp [hrest, hmGet_insert_self]
        · have hstep : hmGet (tiFoldStep d hdr acc t) k = hmGet acc k := by
            unfold tiFoldStep; rw [hk]
            cases hins : hmGet d.template_instantiations t.name with
            | none => simp [hh, hins]
            | some ins => simp [hh, hins, hmGet_insert_ne _ _ _ _ hnk]
          rw [hstep]
          have hex : (∃ u ∈ t :: ts, u.header = hdr ∧ u.is_class = true ∧ u.name = k) ↔
              (∃ u ∈ ts, u.header = hdr ∧ u.is_class = true ∧ u.name = k) := by
            constructor
            · rintro ⟨u, hu, h1, h2, h3⟩
              rcases List.mem_cons.mp hu with rfl | hutl
              · exact absurd h3 hnk
              · exact ⟨u, hutl, h1, h2, h3⟩
            · rintro ⟨u, hu, h1, h2, h3⟩
              exact ⟨u, List.mem_cons_of_mem _ hu, h1, h2, h3⟩
          rw [if_congr (and_congr_left fun _ => hex) rfl rfl]
    · rw [tiFoldStep_other d hdr acc t hh]
      have hex : (∃ u ∈ t :: ts, u.header = hdr ∧ u.is_class = true ∧ u.name = k) ↔
          (∃ u ∈ ts, u.header = hdr ∧ u.is_class = true ∧ u.name = k) := by
        constructor
        · rintro ⟨u, hu, h1, h2, h3⟩
          rcases List.mem_cons.mp hu with rfl | hutl
          · exact absurd h1 hh
          · exact ⟨u, hutl, h1, h2, h3⟩
        · rintro ⟨u, hu, h1, h2, h3⟩
          exact ⟨u, List.mem_cons_of_mem _ hu, h1, h2, h3⟩
      rw [if_congr (and_congr_left fun _ => hex) rfl rfl]

theorem not_mem_keys_of_hmGet_eq_none {α : Type u} (l : List (String × α))
    (k : String) (h : hmGet l k = none) : k ∉ l.map Prod.fst := by
  induction l with
  | nil => simp
  | cons hd tl ih =>
    obtain ⟨k0, v0⟩ := hd
    by_cases h0 : k0 = k
    · simp [hmGet, h0] at h
    · simp only [hmGet, h0, if_false] at h
      simp only [List.map_cons, List.mem_cons]
      push_neg
      exact ⟨fun hk => h0 hk.symm, ih h⟩

theorem mem_keys_of_hmGet_eq_some {α : Type u} {l : List (String × α)}
    {k : String} {v : α} (h : hmGet l k = some v) : k ∈ l.map Prod.fst := by
  by_contra hmem
  rw [hmGet_eq_none_of_not_mem_keys l k hmem] at h
  cases h

theorem hmGet_of_mem_nodup {α : Type u} {l : List (String × α)}
    (hn : (l.map Prod.fst).Nodup) {k : String} {v : α} (hm : (k, v) ∈ l) :
    hmGet l k = some v := by
  induction l with
  | nil => cases hm
  | cons hd tl ih =>
    obtain ⟨k0, v0⟩ := hd
    simp only [List.map_cons, List.nodup_cons] at hn
    rcases List.mem_cons.mp hm with heq | htl
    · cases heq
      simp [hmGet]
    · have hk : k0 ≠ k := by
        intro hk
        subst hk
        exact hn.1 (List.mem_map.mpr ⟨(k0, v), htl, rfl⟩)
      simp [hmGet, hk, ih hn.2 htl]

theorem nodup_append_singleton {a : String} {l : List String}
    (hn : l.Nodup) (ha : a ∉ l) : (l ++ [a]).Nodup := by
  rw [List.nodup_append]
  exact ⟨hn, List.nodup_singleton a,
    fun x hx hxa => ha ((List.mem_singleton.mp hxa) ▸ hx)⟩

theorem splitAddMethod_keys_nodup (R : List (String × CppData)) (m : CppMethod)
    (hn : (R.map Prod.fst).Nodup) :
    ((splitAddMethod R m).map Prod.fst).Nodup := by
  unfold splitAddMethod
  cases horigin : m.origin with
  | IncludeFile f loc =>
    simp only
    by_cases hc : hmContainsKey R f = true
    · simpa [hmModify_keys, hc] using hn
    · have hnone : hmGet R f = none := by
        rcases h0 : hmGet R f with _ | p
        · rfl
        · exact absurd (by simp [hmContainsKey, h0]) hc
      have hf : f ∉ R.map Prod.fst := not_mem_keys_of_hmGet_eq_none R f hnone
      have hres : ((hmModify (hmInsert R f CppData.default) f
          (fun p => { p with methods := p.methods ++ [m] })).map Prod.fst).Nodup := by
        rw [hmModify_keys, hmInsert_keys, if_neg hf]
        exact nodup_append_singleton hn hf
      simpa [hc] using hres

theorem splitAddType_keys_nodup (d : CppData) (R : List (String × CppData))
    (tp : CppTypeData) (hn : (R.map Prod.fst).Nodup) :
    ((splitAddType d R tp).map Prod.fst).Nodup := by
  unfold splitAddType
  have hmid : ∀ R1 : List (String × CppData),
      (R1.map Prod.fst).Nodup →
      ((match tp.kind with
        | CppTypeKind.Class s b f ta =>
          match hmGet d.template_instantiations tp.name with
          | some ins =>
            hmModify (hmModify R1 tp.header
              (fun p => { p with types := p.types ++ [tp] })) tp.header
              (fun p =>
                { p with
                  template_instantiations :=
                    hmInsert p.template_instantiations tp.name ins })
          | none =>
            hmModify R1 tp.header (fun p => { p with types := p.types ++ [tp] })
        | _ => hmModify R1 tp.header
            (fun p => { p with types := p.types ++ [tp] })).map Prod.fst).Nodup := by
    intro R1 h1
    cases hk : tp.kind with
    | Enum values => simpa [hmModify_keys] using h1
    | Class s b f ta =>
      cases hins : hmGet d.template_instantiations tp.name with
      | none => simpa [hmModify_keys] using h1
      | some ins => simpa [hmModify_keys] using h1
  by_cases hc : hmContainsKey R tp.header = true
  · simpa [hc] using hmid R hn
  · have hnone : hmGet R tp.header = none := by
      rcases h0 : hmGet R tp.header with _ | p
      · rfl
      · exact absurd (by simp [hmContainsKey, h0]) hc
    have hf : tp.header ∉ R.map Prod.fst :=
      not_mem_keys_of_hmGet_eq_none R tp.header hnone
    have : ((hmInsert R tp.header CppData.default).map Prod.fst).Nodup := by
      rw [hmInsert_keys]
      simp only [hf, if_false]
      exact nodup_append_singleton hn hf
    simpa [hc] using hmid (hmInsert R tp.header CppData.default) this

/-- The partition map of split_by_headers binds each header at most
once. -/
theorem split_by_headers_keys_nodup (d : CppData) :
    ((d.split_by_headers).map Prod.fst).Nodup := by
  unfold CppData.split_by_headers
  have h1 : ∀ (ms : List CppMethod) (R : List (String × CppData)),
      (R.map Prod.fst).Nodup → ((ms.foldl splitAddMethod R).map Prod.fst).Nodup := by
    intro ms
    induction ms with
    | nil => intro R hn; exact hn
    | cons m ms ih =>
      intro R hn
      exact ih _ (splitAddMethod_keys_nodup R m hn)
  have h2 : ∀ (ts : List CppTypeData) (R : List (String × CppData)),
      (R.map Prod.fst).Nodup →
      ((ts.foldl (splitAddType d) R).map Prod.fst).Nodup := by
    intro ts
    induction ts with
    | nil => intro R hn; exact hn
    | cons tp ts ih =>
      intro R hn
      exact ih _ (splitAddType_keys_nodup d R tp hn)
  exact h2 _ _ (h1 _ _ (by simp))

theorem count_filter_eq {α : Type u} [DecidableEq α] (p : α → Bool)
    (l : List α) (a : α) :
    (l.filter p).count a = if p a = true then l.count a else 0 := by
  by_cases h : p a = true
  · simp [List.count_filter, h]
  · rw [if_neg h]
    refine List.count_eq_zero_of_not_mem ?_
    intro hm
    exact h (List.mem_filter.mp hm).2

theorem sum_map_ite_key (L : List (String × CppData)) (k : String) (c : Nat)
    (hn : (L.map Prod.fst).Nodup) :
    (L.map (fun e => if e.1 = k then c else 0)).sum =
      if k ∈ L.map Prod.fst then c else 0 := by
  induction L with
  | nil => simp
  | cons e L ih =>
    obtain ⟨k0, p0⟩ := e
    simp only [List.map_cons, List.nodup_cons] at hn
    by_cases h0 : k0 = k
    · subst h0
      have : k0 ∉ L.map Prod.fst := hn.1
      simp [ih hn.2, this]
    · have hne : ¬k = k0 := fun hk => h0 hk.symm
      have hmm : (k ∈ List.map Prod.fst ((k0, p0) :: L)) ↔
          k ∈ List.map Prod.fst L := by
        simp [hne]
      by_cases hk : k ∈ List.map Prod.fst L
      · simp [h0, ih hn.2, hk, hmm.mpr hk]
      · have hout : k ∉ List.map Prod.fst ((k0, p0) :: L) := fun hx => hk (hmm.mp hx)
        simp [h0, ih hn.2, hk, hout, hne]

/-- C1: split_by_headers is a total, disjoint, lossless projection:
each partition holds exactly the methods whose origin names its header
and exactly the types declaring its header, so every method and type of
the model appears with unchanged multiplicity in exactly the partition
of its header, headers are partitioned without duplication, the
multiset union of all partitions methods (resp. types) equals the
models methods (resp. types), and an instantiation-registry entry
appears in a partition exactly when its key names a class-kind type of
the model declared in that header. -/
theorem split_by_headers_projection (d : CppData) :
    (∀ h, (d.partitionAt h).methods =
        d.methods.filter (fun m => m.includeFile = h)) ∧
    (∀ h, (d.partitionAt h).types =
        d.types.filter (fun t => t.header = h)) ∧
    (∀ h m, ((d.partitionAt h).methods).count m =
        if m.includeFile = h then d.methods.count m else 0) ∧
    (∀ h t, ((d.partitionAt h).types).count t =
        if t.header = h then d.types.count t else 0) ∧
    ((d.split_by_headers.map Prod.fst).Nodup) ∧
    (∀ m, (d.split_by_headers.map (fun e => e.2.methods.count m)).sum =
        d.methods.count m) ∧
    (∀ t, (d.split_by_headers.map (fun e => e.2.types.count t)).sum =
        d.types.count t) ∧
    (∀ h k ins,
      hmGet (d.partitionAt h).template_instantiations k = some ins ↔
        ((∃ t ∈ d.types, t.header = h ∧ t.is_class = true ∧ t.name = k) ∧
          hmGet d.template_instantiations k = some ins)) := by
  have pm : ∀ h, (d.partitionAt h).methods =
      d.methods.filter (fun m => m.includeFile = h) := by
    intro h
    unfold CppData.partitionAt
    rw [split_by_headers_get]
    by_cases hfm : d.methods.filter (fun m => m.includeFile = h) = []
    · by_cases hft : d.types.filter (fun t => t.header = h) = []
      · simp [hfm, hft, CppData.default]
      · simp [hfm, hft]
    · simp [hfm]
  have pt : ∀ h, (d.partitionAt h).types =
      d.types.filter (fun t => t.header = h) := by
    intro h
    unfold CppData.partitionAt
    rw [split_by_headers_get]
    by_cases hfm : d.methods.filter (fun m => m.includeFile = h) = []
    · by_cases hft : d.types.filter (fun t => t.header = h) = []
      · simp [hfm, hft, CppData.default]
      · simp [hfm, hft]
    · simp [hfm]
  have cm : ∀ h m, ((d.partitionAt h).methods).count m =
      if m.includeFile = h then d.methods.count m else 0 := by
    intro h m
    rw [pm h, count_filter_eq]
    by_cases hmh : m.includeFile = h
    · simp [hmh]
    · simp [hmh]
  have ct : ∀ h t, ((d.partitionAt h).types).count t =
      if t.header = h then d.types.count t else 0 := by
    intro h t
    rw [pt h, count_filter_eq]
    by_cases hth : t.header = h
    · simp [hth]
    · simp [hth]
  have hnodup := split_by_headers_keys_nodup d
  have sm : ∀ m, (d.split_by_headers.map (fun e => e.2.methods.count m)).sum =
      d.methods.count m := by
    intro m
    have hmap : d.split_by_headers.map (fun e => e.2.methods.count m) =
        d.split_by_headers.map
          (fun e => if e.1 = m.includeFile then d.methods.count m else 0) := by
      apply List.map_congr_left
      intro e he
      obtain ⟨h, p⟩ := e
      have hget : hmGet d.split_by_headers h = some p :=
        hmGet_of_mem_nodup hnodup he
      have hp : p.methods = d.methods.filter (fun x => x.includeFile = h) := by
        have := pm h
        unfold CppData.partitionAt at this
        rw [hget] at this
        simpa using this
      simp only [hp, count_filter_eq]
      by_cases hmh : m.includeFile = h
      · simp [hmh]
      · have : ¬h = m.includeFile := fun hx => hmh hx.symm
        simp [hmh, this]
    rw [hmap, sum_map_ite_key _ _ _ hnodup]
    by_cases hz : d.methods.count m = 0
    · rw [hz]
      simp
    · have hmem : m ∈ d.methods := List.count_pos_iff.mp (Nat.pos_of_ne_zero hz)
      have hfmem : m ∈ d.methods.filter (fun x => x.includeFile = m.includeFile) :=
        List.mem_filter.mpr ⟨hmem, by simp⟩
      have hfne : d.methods.filter (fun x => x.includeFile = m.includeFile) ≠ [] := by
        intro h0
        rw [h0] at hfmem
        cases hfmem
      have hpresent : hmGet d.split_by_headers m.includeFile =
          some { types := d.types.filter (fun t => t.header = m.includeFile)
                 methods := d.methods.filter (fun x => x.includeFile = m.includeFile)
                 template_instantiations := tiFold d m.includeFile [] d.types } := by
        rw [split_by_headers_get]
        rw [if_neg (fun hc => hfne hc.1)]
      have hkey : m.includeFile ∈ d.split_by_headers.map Prod.fst :=
        mem_keys_of_hmGet_eq_some hpresent
      rw [if_pos hkey]
  have st : ∀ t, (d.split_by_headers.map (fun e => e.2.types.count t)).sum =
      d.types.count t := by
    intro t
    have hmap : d.split_by_headers.map (fun e => e.2.types.count t) =
        d.split_by_headers.map
          (fun e => if e.1 = t.header then d.types.count t else 0) := by
      apply List.map_congr_left
      intro e he
      obtain ⟨h, p⟩ := e
      have hget : hmGet d.split_by_headers h = some p :=
        hmGet_of_mem_nodup hnodup he
      have hp : p.types = d.types.filter (fun x => x.header = h) := by
        have := pt h
        unfold CppData.partitionAt at this
        rw [hget] at this
        simpa using this
      simp only [hp, count_filter_eq]
      by_cases hth : t.header = h
      · simp [hth]
      · have : ¬h = t.header := fun hx => hth hx.symm
        simp [hth, this]
    rw [hmap, sum_map_ite_key _ _ _ hnodup]
    by_cases hz : d.types.count t = 0
    · rw [hz]
      simp
    · have hmem : t ∈ d.types := List.count_pos_iff.mp (Nat.pos_of_ne_zero hz)
      have hfmem : t ∈ d.types.filter (fun x => x.header = t.header) :=
        List.mem_filter.mpr ⟨hmem, by simp⟩
      have hfne : d.types.filter (fun x => x.header = t.header) ≠ [] := by
        intro h0
        rw [h0] at hfmem
        cases hfmem
      have hpresent : hmGet d.split_by_headers t.header =
          some { types := d.types.filter (fun x => x.header = t.header)
                 methods := d.methods.filter (fun x => x.includeFile = t.header)
                 template_instantiations := tiFold d t.header [] d.types } := by
        rw [split_by_headers_get]
        rw [if_neg (fun hc => hfne hc.2)]
      have hkey : t.header ∈ d.split_by_headers.map Prod.fst :=
        mem_keys_of_hmGet_eq_some hpresent
      rw [if_pos hkey]
  have rti : ∀ h k ins,
      hmGet (d.partitionAt h).template_instantiations k = some ins ↔
        ((∃ t ∈ d.types, t.header = h ∧ t.is_class = true ∧ t.name = k) ∧
          hmGet d.template_instantiations k = some ins) := by
    intro h k ins
    unfold CppData.partitionAt
    rw [split_by_headers_get]
    by_cases hcond : d.methods.filter (fun m => m.includeFile = h) = [] ∧
        d.types.filter (fun t => t.header = h) = []
    · rw [if_pos hcond]
      simp only [Option.getD_none]
      constructor
      · intro hx
        simp [CppData.default, hmGet] at hx
      · rintro ⟨⟨t, ht, hth, _, _⟩, _⟩
        have hmemf : t ∈ d.types.filter (fun x => x.header = h) :=
          List.mem_filter.mpr ⟨ht, by simp [hth]⟩
        rw [hcond.2] at hmemf
        cases hmemf
    · rw [if_neg hcond]
      simp only [Option.getD_some]
      rw [tiFold_get]
      by_cases hex : ∃ t ∈ d.types, t.header = h ∧ t.is_class = true ∧ t.name = k
      · by_cases hsome : (hmGet d.template_instantiations k).isSome = true
        · rw [if_pos ⟨hex, hsome⟩]
          exact ⟨fun hx => ⟨hex, hx⟩, fun hx => hx.2⟩
        · rw [if_neg (fun hc => hsome hc.2)]
          constructor
          · intro hx
            simp [hmGet] at hx
          · rintro ⟨_, hreg⟩
            exact absurd (by simp [hreg]) hsome
      · rw [if_neg (fun hc => hex hc.1)]
        constructor
        · intro hx
          simp [hmGet] at hx
        · rintro ⟨hex2, _⟩
          exact absurd hex2 hex
  exact ⟨pm, pt, cm, ct, hnodup, sm, st, rti⟩

/-- A method on Widget declared in widget.h, used in witnesses. -/
def resizeMethod : CppMethod :=
  { name := "resize"
    scope := CppMethodScope.Class "Widget"
    is_virtual := false
    is_pure_virtual := false
    is_const := false
    is_static := false
    visibility := CppVisibility.Public
    is_signal := false
    return_type := none
    is_constructor := false
    is_destructor := false
    operator := none
    conversion_operator := none
    is_variable := false
    arguments := []
    allows_variable_arguments := false
    original_index := 0
    origin := CppTypeOrigin.IncludeFile "widget.h" none
    template_arguments := none }

/-- A template class declared in vector.h, used in witnesses. -/
def templateType : CppTypeData :=
  { name := "Vector", header := "vector.h"
    kind := CppTypeKind.Class none [] [] (some ["T"]) }

/-- A concrete model with two headers, one method and one registry
entry, used in witnesses. -/
def splitSampleModel : CppData :=
  { types := [widgetType, templateType]
    methods := [resizeMethod]
    template_instantiations := [("Vector", [[⟨CppTypeBase.Class "int"⟩]])] }

/-- Witness for C1 at the concrete model splitSampleModel. -/
theorem split_by_headers_projection_witness :
    (splitSampleModel.partitionAt "widget.h").methods =
      splitSampleModel.methods.filter (fun m => m.includeFile = "widget.h") ∧
    hmGet (splitSampleModel.partitionAt "vector.h").template_instantiations
        "Vector" = some [[⟨CppTypeBase.Class "int"⟩]] :=
  ⟨(split_by_headers_projection splitSampleModel).1 "widget.h",
   ((split_by_headers_projection splitSampleModel).2.2.2.2.2.2.2 "vector.h"
        "Vector" [[⟨CppTypeBase.Class "int"⟩]]).mpr
     ⟨⟨templateType, by decide, by decide, by decide, by decide⟩, by decide⟩⟩

/-
Embedding of cpp_core/src/iterator.rs (CppIterator).

Positions are modelled over an abstract sequence as indices: the
Indirection operation reads the element at the index through an
abstract element function, Increment adds one, Decrement subtracts one,
and native position equality is index equality. Each step additionally
records, in order, the unsafe position operations it performs, so that
the order of dereference and movement is part of the verified
statement.
-/

/-- One unsafe position operation performed by an iterator step. -/
inductive IterOp where
  | deref (pos : Nat)
  | inc
  | dec
  deriving DecidableEq

/-- iterator.rs, CppIterator: two owned positions. -/
structure CppIterator where
  begin : Nat
  end_ : Nat
  deriving DecidableEq

/-- iterator.rs, cpp_iter: constructs the bridge from two positions. -/
def cpp_iter (begin : Nat) (end_ : Nat) : CppIterator :=
  { begin := begin, end_ := end_ }

/-- iterator.rs, the Iterator impl, fn next: when begin equals end the
sequence is exhausted; otherwise dereference begin, then advance begin
by one. Returns the yielded element, the successor state and the trace
of position operations. -/
def CppIterator.next {α : Type u} (elem : Nat → α) (it : CppIterator) :
    Option α × CppIterator × List IterOp :=
  if it.begin = it.end_ then (none, it, [])
  else
    let value := elem it.begin
    (some value, { it with begin := it.begin + 1 },
      [IterOp.deref it.begin, IterOp.inc])

/-- iterator.rs, the DoubleEndedIterator impl, fn next_back: when begin
equals end the sequence is exhausted; otherwise retreat end by one,
then dereference the retreated end. -/
def CppIterator.next_back {α : Type u} (elem : Nat → α) (it : CppIterator) :
    Option α × CppIterator × List IterOp :=
  if it.begin = it.end_ then (none, it, [])
  else
    (some (elem (it.end_ - 1)), { it with end_ := it.end_ - 1 },
      [IterOp.dec, IterOp.deref (it.end_ - 1)])

/-- C3: for every iterator bridge whose begin and end positions are not
equal, a forward step first dereferences the begin position to yield
the element and then advances begin by one; a reverse step first
retreats the end position by one and then dereferences the retreated
end; and whenever begin equals end, both steps report exhaustion
without dereferencing or moving either position. -/
theorem cppIterator_step_order {α : Type u} (elem : Nat → α) (it : CppIterator) :
    (it.begin ≠ it.end_ →
      it.next elem = (some (elem it.begin), { it with begin := it.begin + 1 },
        [IterOp.deref it.begin, IterOp.inc]) ∧
      it.next_back elem = (some (elem (it.end_ - 1)),
        { it with end_ := it.end_ - 1 },
        [IterOp.dec, IterOp.deref (it.end_ - 1)])) ∧
    (it.begin = it.end_ →
      it.next elem = (none, it, []) ∧ it.next_back elem = (none, it, [])) := by
  constructor
  · intro hne
    constructor
    · simp [CppIterator.next, hne]
    · simp [CppIterator.next_back, hne]
  · intro heq
    constructor
    · simp [CppIterator.next, heq]
    · simp [CppIterator.next_back, heq]

/-- Witness for C3 at concrete positions. -/
theorem cppIterator_step_order_witness :
    ((1 : Nat) ≠ (3 : Nat) →
      CppIterator.next (fun i => i) ⟨1, 3⟩ =
        (some 1, ⟨2, 3⟩, [IterOp.deref 1, IterOp.inc]) ∧
      CppIterator.next_back (fun i => i) ⟨1, 3⟩ =
        (some 2, ⟨1, 2⟩, [IterOp.dec, IterOp.deref 2])) ∧
    ((2 : Nat) = (2 : Nat) →
      CppIterator.next (fun i => i) ⟨2, 2⟩ = (none, ⟨2, 2⟩, []) ∧
      CppIterator.next_back (fun i => i) ⟨2, 2⟩ = (none, ⟨2, 2⟩, [])) :=
  ⟨fun h => (cppIterator_step_order (fun i => i) ⟨1, 3⟩).1 h,
   fun _ => (cppIterator_step_order (fun i => i) ⟨2, 2⟩).2 rfl⟩

/-- Run a list of pull directions against the bridge (true is a forward
step through next, false a reverse step through next_back), collecting
the yielded elements in order. -/
def runSteps {α : Type u} (elem : Nat → α) :
    List Bool → CppIterator → List α × CppIterator
  | [], it => ([], it)
  | d :: rest, it =>
    match (if d then it.next elem else it.next_back elem) with
    | (none, it1, _) => runSteps elem rest it1
    | (some v, it1, _) =>
      let r := runSteps elem rest it1
      (v :: r.1, r.2)

/-- Invariant of any interleaving of forward and reverse steps over a
valid range: positions stay nested, the yield count equals the consumed
prefix plus the consumed suffix, every yielded position lies in the
consumed part of the range, and no position is yielded twice. -/
theorem runSteps_spec (dirs : List Bool) (b e : Nat) (hbe : b ≤ e) :
    b ≤ (runSteps (fun i => i) dirs ⟨b, e⟩).2.begin ∧
    (runSteps (fun i => i) dirs ⟨b, e⟩).2.begin ≤
      (runSteps (fun i => i) dirs ⟨b, e⟩).2.end_ ∧
    (runSteps (fun i => i) dirs ⟨b, e⟩).2.end_ ≤ e ∧
    (runSteps (fun i => i) dirs ⟨b, e⟩).1.length =
      ((runSteps (fun i => i) dirs ⟨b, e⟩).2.begin - b) +
        (e - (runSteps (fun i => i) dirs ⟨b, e⟩).2.end_) ∧
    (∀ i ∈ (runSteps (fun i => i) dirs ⟨b, e⟩).1,
      (b ≤ i ∧ i < (runSteps (fun i => i) dirs ⟨b, e⟩).2.begin) ∨
      ((runSteps (fun i => i) dirs ⟨b, e⟩).2.end_ ≤ i ∧ i < e)) ∧
    (runSteps (fun i => i) dirs ⟨b, e⟩).1.Nodup := by
  induction dirs generalizing b e with
  | nil =>
    simp [runSteps]
    omega
  | cons d rest ih =>
    by_cases heq : b = e
    · subst heq
      have hrun : runSteps (fun i => i) (d :: rest) ⟨b, b⟩ =
          runSteps (fun i => i) rest ⟨b, b⟩ := by
        cases d <;> simp [runSteps, CppIterator.next, CppIterator.next_back]
      rw [hrun]
      exact ih b b (Nat.le_refl b)
    · have hlt : b < e := Nat.lt_of_le_of_ne hbe heq
      cases d with
      | true =>
        have hrun : runSteps (fun i => i) (true :: rest) ⟨b, e⟩ =
            (b :: (runSteps (fun i => i) rest ⟨b + 1, e⟩).1,
             (runSteps (fun i => i) rest ⟨b + 1, e⟩).2) := by
          simp [runSteps, CppIterator.next, heq]
        rw [hrun]
        dsimp only
        obtain ⟨h1, h2, h3, h4, h5, h6⟩ := ih (b + 1) e hlt
        refine ⟨by omega, h2, h3,
          by simp only [List.length_cons, h4]; omega, ?_, ?_⟩
        · intro i hi
          rcases List.mem_cons.mp hi with rfl | hitl
          · exact Or.inl ⟨Nat.le_refl i, by omega⟩
          · rcases h5 i hitl with ⟨ha, hb2⟩ | ⟨ha, hb2⟩
            · exact Or.inl ⟨by omega, hb2⟩
            · exact Or.inr ⟨ha, hb2⟩
        · rw [List.nodup_cons]
          refine ⟨?_, h6⟩
          intro hmem
          rcases h5 b hmem with ⟨ha, _⟩ | ⟨ha, _⟩ <;> omega
      | false =>
        have hrun : runSteps (fun i => i) (false :: rest) ⟨b, e⟩ =
            ((e - 1) :: (runSteps (fun i => i) rest ⟨b, e - 1⟩).1,
             (runSteps (fun i => i) rest ⟨b, e - 1⟩).2) := by
          simp [runSteps, CppIterator.next_back, heq]
        rw [hrun]
        dsimp only
        obtain ⟨h1, h2, h3, h4, h5, h6⟩ := ih b (e - 1) (by omega)
        refine ⟨h1, h2, by omega,
          by simp only [List.length_cons, h4]; omega, ?_, ?_⟩
        · intro i hi
          rcases List.mem_cons.mp hi with rfl | hitl
          · exact Or.inr ⟨by omega, by omega⟩
          · rcases h5 i hitl with ⟨ha, hb2⟩ | ⟨ha, hb2⟩
            · exact Or.inl ⟨ha, hb2⟩
            · exact Or.inr ⟨ha, by omega⟩
        · rw [List.nodup_cons]
          refine ⟨?_, h6⟩
          intro hmem
          rcases h5 (e - 1) hmem with ⟨_, hb2⟩ | ⟨_, hb2⟩ <;> omega

/-- A pure forward traversal of a range of length L yields exactly the
L positions in order and leaves both positions at the end. -/
theorem runSteps_forward_all (L b e : Nat) (hbe : b + L = e) :
    runSteps (fun i => i) (List.replicate L true) ⟨b, e⟩ =
      (List.range' b L, ⟨e, e⟩) := by
  induction L generalizing b with
  | zero =>
    have : b = e := by omega
    subst this
    simp [runSteps]
  | succ L ih =>
    have hne : b ≠ e := by omega
    rw [List.replicate_succ]
    have hrun : runSteps (fun i => i) (true :: List.replicate L true) ⟨b, e⟩ =
        (b :: (runSteps (fun i => i) (List.replicate L true) ⟨b + 1, e⟩).1,
         (runSteps (fun i => i) (List.replicate L true) ⟨b + 1, e⟩).2) := by
      simp [runSteps, CppIterator.next, hne]
    rw [hrun, ih (b + 1) (by omega)]
    simp [List.range'_succ]

/-- A pure reverse traversal of a range of length L yields exactly the
L positions in reverse order and leaves both positions at the start. -/
theorem runSteps_backward_all (L b e : Nat) (hbe : b + L = e) :
    runSteps (fun i => i) (List.replicate L false) ⟨b, e⟩ =
      ((List.range' b L).reverse, ⟨b, b⟩) := by
  induction L generalizing e with
  | zero =>
    have : b = e := by omega
    subst this
    simp [runSteps]
  | succ L ih =>
    have hne : b ≠ e := by omega
    rw [List.replicate_succ]
    have hrun : runSteps (fun i => i) (false :: List.replicate L false) ⟨b, e⟩ =
        ((e - 1) :: (runSteps (fun i => i) (List.replicate L false) ⟨b, e - 1⟩).1,
         (runSteps (fun i => i) (List.replicate L false) ⟨b, e - 1⟩).2) := by
      simp [runSteps, CppIterator.next_back, hne]
    rw [hrun, ih (e - 1) (by omega)]
    have hconcat : List.range' b (L + 1) = List.range' b L ++ [b + L] := by
      simpa using @List.range'_concat 1 b L
    rw [hconcat]
    have : b + L = e - 1 := by omega
    simp [this]

/-- C4: over a valid range of length L (positions modelled as indices
into an abstract sequence), exactly L forward steps succeed before
exhaustion, exactly L reverse steps succeed before exhaustion, and any
interleaving of forward and reverse steps yields at most L elements,
all within the range, and never yields the same range element twice. -/
theorem cppIterator_bridge_symmetry (b e : Nat) (hbe : b ≤ e) :
    (runSteps (fun i => i) (List.replicate (e - b) true) ⟨b, e⟩ =
      (List.range' b (e - b), ⟨e, e⟩)) ∧
    (CppIterator.next (fun i => i) ⟨e, e⟩ = (none, ⟨e, e⟩, [])) ∧
    (runSteps (fun i => i) (List.replicate (e - b) false) ⟨b, e⟩ =
      ((List.range' b (e - b)).reverse, ⟨b, b⟩)) ∧
    (CppIterator.next_back (fun i => i) ⟨b, b⟩ = (none, ⟨b, b⟩, [])) ∧
    (∀ dirs : List Bool,
      (runSteps (fun i => i) dirs ⟨b, e⟩).1.length ≤ e - b ∧
      (runSteps (fun i => i) dirs ⟨b, e⟩).1.Nodup ∧
      ∀ i ∈ (runSteps (fun i => i) dirs ⟨b, e⟩).1, b ≤ i ∧ i < e) := by
  refine ⟨runSteps_forward_all (e - b) b e (by omega), by simp [CppIterator.next],
    runSteps_backward_all (e - b) b e (by omega), by simp [CppIterator.next_back],
    ?_⟩
  intro dirs
  obtain ⟨h1, h2, h3, h4, h5, h6⟩ := runSteps_spec dirs b e hbe
  refine ⟨by omega, h6, ?_⟩
  intro i hi
  rcases h5 i hi with ⟨ha, hb2⟩ | ⟨ha, hb2⟩
  · exact ⟨ha, by omega⟩
  · exact ⟨by omega, hb2⟩

/-- Witness for C4 at the concrete range from 1 to 3. -/
theorem cppIterator_bridge_symmetry_witness :
    runSteps (fun i => i) (List.replicate (3 - 1) true) ⟨1, 3⟩ =
      (List.range' 1 (3 - 1), ⟨3, 3⟩) :=
  (cppIterator_bridge_symmetry 1 3 (by decide)).1

/-
Embedding of ritual/src/crate_writer.rs, fn recursive_merge_toml.

toml::Value is modelled as an inductive; the float and datetime
payloads are opaque to the merge (never inspected beyond the type tag)
and are carried as uninterpreted data. Tables are maps from strings to
values, modelled as association lists; iteration of the user table
follows list order, which for a map visits every binding exactly once.
-/

/-- The toml value tree (toml::Value). -/
inductive TomlValue where
  | string (s : String)
  | integer (i : Int)
  | float (bits : Int)
  | boolean (b : Bool)
  | datetime (dt : String)
  | array (xs : List TomlValue)
  | table (t : List (String × TomlValue))

/-- The type tag of a toml value, used by Value::same_type. -/
def TomlValue.tag : TomlValue → Nat
  | .string _ => 0
  | .integer _ => 1
  | .float _ => 2
  | .boolean _ => 3
  | .datetime _ => 4
  | .array _ => 5
  | .table _ => 6

/-- toml Value::same_type: both values have the same discriminant. -/
def TomlValue.same_type (a b : TomlValue) : Bool :=
  a.tag = b.tag

mutual

/-- crate_writer.rs, fn recursive_merge_toml: merges a and b
recursively, b takes precedence over a. -/
def recursive_merge_toml : TomlValue → TomlValue → TomlValue
  | a, b =>
    if a.same_type b then
      match a, b with
      | .array a_array, .array b_array => .array (a_array ++ b_array)
      | .table a_table, .table b_table => .table (mergeTablePairs a_table b_table)
      | _, _ => b
    else b
  termination_by _ b => sizeOf b

/-- The loop over the bindings of the user table: a binding already
present in the generated table is replaced by the recursive merge of
the two values, an absent one is inserted. -/
def mergeTablePairs : List (String × TomlValue) → List (String × TomlValue) →
    List (String × TomlValue)
  | a_table, [] => a_table
  | a_table, (key, value) :: rest =>
    match hmGet a_table key with
    | some old_value =>
      mergeTablePairs (hmInsert a_table key (recursive_merge_toml old_value value)) rest
    | none => mergeTablePairs (hmInsert a_table key value) rest
  termination_by _ b => sizeOf b

end

theorem mergeTablePairs_nil (ta : List (String × TomlValue)) :
    mergeTablePairs ta [] = ta := by
  unfold mergeTablePairs
  rfl

theorem mergeTablePairs_cons (ta : List (String × TomlValue)) (k0 : String)
    (v0 : TomlValue) (rest : List (String × TomlValue)) :
    mergeTablePairs ta ((k0, v0) :: rest) =
      match hmGet ta k0 with
      | some old_value =>
        mergeTablePairs (hmInsert ta k0 (recursive_merge_toml old_value v0)) rest
      | none => mergeTablePairs (hmInsert ta k0 v0) rest := by
  conv_lhs => rw [mergeTablePairs]

/-- Lookup characterization of the table-merge loop: for a user table
with distinct keys, a shared key is bound to the recursive merge of the
two values, a key only in the generated table keeps its value, and a
key only in the user table receives the user value. -/
theorem mergeTablePairs_get (ta tb : List (String × TomlValue)) (k : String)
    (hn : (tb.map Prod.fst).Nodup) :
    hmGet (mergeTablePairs ta tb) k =
      match hmGet ta k, hmGet tb k with
      | some va, some vb => some (recursive_merge_toml va vb)
      | some va, none => some va
      | none, ob => ob := by
  induction tb generalizing ta with
  | nil =>
    rw [mergeTablePairs_nil]
    have hb : hmGet ([] : List (String × TomlValue)) k = none := rfl
    rw [hb]
    cases hmGet ta k <;> rfl
  | cons hd rest ih =>
    obtain ⟨k0, v0⟩ := hd
    simp only [List.map_cons, List.nodup_cons] at hn
    have hrest0 : hmGet rest k0 = none :=
      hmGet_eq_none_of_not_mem_keys rest k0 hn.1
    cases hget : hmGet ta k0 with
    | some old_value =>
      rw [mergeTablePairs_cons, hget]
      dsimp only
      rw [ih _ hn.2]
      by_cases hk : k = k0
      · subst hk
        rw [hmGet_insert_self, hrest0, hget]
        have htb : hmGet ((k, v0) :: rest) k = some v0 := by
          simp [hmGet]
        rw [htb]
      · have hk0 : k0 ≠ k := fun hx => hk hx.symm
        rw [hmGet_insert_ne _ _ _ _ hk0]
        have htb : hmGet ((k0, v0) :: rest) k = hmGet rest k := by
          simp [hmGet, hk0]
        rw [htb]
    | none =>
      rw [mergeTablePairs_cons, hget]
      dsimp only
      rw [ih _ hn.2]
      by_cases hk : k = k0
      · subst hk
        rw [hmGet_insert_self, hrest0, hget]
        have htb : hmGet ((k, v0) :: rest) k = some v0 := by
          simp [hmGet]
        rw [htb]
      · have hk0 : k0 ≠ k := fun hx => hk hx.symm
        rw [hmGet_insert_ne _ _ _ _ hk0]
        have htb : hmGet ((k0, v0) :: rest) k = hmGet rest k := by
          simp [hmGet, hk0]
        rw [htb]

/-- C5: the manifest merge is a pure function of its two inputs (hence
deterministic) such that: when both values are arrays the result is
the generated entries followed by the user entries; when both are
tables the result merges key-by-key with shared keys merged
recursively; and in every other case, a scalar conflict of equal type
or a conflict of differing types, the result is the user value. -/
theorem recursive_merge_toml_spec :
    (∀ xs ys, recursive_merge_toml (TomlValue.array xs) (TomlValue.array ys) =
      TomlValue.array (xs ++ ys)) ∧
    (∀ ta tb, recursive_merge_toml (TomlValue.table ta) (TomlValue.table tb) =
      TomlValue.table (mergeTablePairs ta tb)) ∧
    (∀ ta tb k, (tb.map Prod.fst).Nodup →
      hmGet (mergeTablePairs ta tb) k =
        match hmGet ta k, hmGet tb k with
        | some va, some vb => some (recursive_merge_toml va vb)
        | some va, none => some va
        | none, ob => ob) ∧
    (∀ a b, a.same_type b = false → recursive_merge_toml a b = b) ∧
    (∀ x y, recursive_merge_toml (TomlValue.string x) (TomlValue.string y) =
      TomlValue.string y) ∧
    (∀ i j, recursive_merge_toml (TomlValue.integer i) (TomlValue.integer j) =
      TomlValue.integer j) ∧
    (∀ f g, recursive_merge_toml (TomlValue.float f) (TomlValue.float g) =
      TomlValue.float g) ∧
    (∀ p q, recursive_merge_toml (TomlValue.boolean p) (TomlValue.boolean q) =
      TomlValue.boolean q) ∧
    (∀ u v, recursive_merge_toml (TomlValue.datetime u) (TomlValue.datetime v) =
      TomlValue.datetime v) := by
  refine ⟨?_, ?_, ?_, ?_, ?_, ?_, ?_, ?_, ?_⟩
  · intro xs ys
    unfold recursive_merge_toml
    simp [TomlValue.same_type, TomlValue.tag]
  · intro ta tb
    unfold recursive_merge_toml
    simp [TomlValue.same_type, TomlValue.tag]
  · intro ta tb k hn
    exact mergeTablePairs_get ta tb k hn
  · intro a b hne
    unfold recursive_merge_toml
    simp [hne]
  · intro x y
    unfold recursive_merge_toml
    simp [TomlValue.same_type, TomlValue.tag]
  · intro i j
    unfold recursive_merge_toml
    simp [TomlValue.same_type, TomlValue.tag]
  · intro f g
    unfold recursive_merge_toml
    simp [TomlValue.same_type, TomlValue.tag]
  · intro p q
    unfold recursive_merge_toml
    simp [TomlValue.same_type, TomlValue.tag]
  · intro u v
    unfold recursive_merge_toml
    simp [TomlValue.same_type, TomlValue.tag]

/-- Witness for C5 at concrete values: an overlapping table key and a
type conflict. -/
theorem recursive_merge_toml_spec_witness :
    (([("x", TomlValue.integer 2)].map Prod.fst).Nodup ∧
      hmGet (mergeTablePairs [("x", TomlValue.integer 1)]
          [("x", TomlValue.integer 2)]) "x" =
        match hmGet [("x", TomlValue.integer 1)] "x",
            hmGet [("x", TomlValue.integer 2)] "x" with
        | some va, some vb => some (recursive_merge_toml va vb)
        | some va, none => some va
        | none, ob => ob) ∧
    ((TomlValue.integer 1).same_type (TomlValue.string "s") = false ∧
      recursive_merge_toml (TomlValue.integer 1) (TomlValue.string "s") =
        TomlValue.string "s") :=
  ⟨⟨by decide,
    recursive_merge_toml_spec.2.2.1 [("x", TomlValue.integer 1)]
      [("x", TomlValue.integer 2)] "x" (by decide)⟩,
   ⟨by decide,
    recursive_merge_toml_spec.2.2.2.1 (TomlValue.integer 1)
      (TomlValue.string "s") (by decide)⟩⟩

/-
Embedding of ritual/src/crate_writer.rs, fn run: the ABI filtering step
(used_ffi_functions and the filter passed to generate_cpp_file) and the
output-clearing loop.
-/

/-- rust_info.rs, RustPath: a full Rust name; its last component is the
FFI symbol name. The last component of the empty path is modelled as
the empty string (paths are never empty in the source). -/
structure RustPath where
  parts : List String
  deriving DecidableEq

/-- RustPath::last. -/
def RustPath.last (p : RustPath) : String :=
  p.parts.getLastD ""

/-- The rust database items as seen by the ABI filter: an FFI function
declaration carrying its path, or any other item kind (collapsed, the
filter only distinguishes FfiFunction). -/
inductive RustItem where
  | FfiFunction (path : RustPath)
  | Other
  deriving DecidableEq

/-- One component of a C++ path, carrying its name. -/
structure CppPathItem where
  name : String
  deriving DecidableEq

/-- An FFI item of the current database as seen by the ABI filter: only
whether it is a function and the name of the last component of its path
are inspected. -/
structure CppFfiItem where
  is_function : Bool
  path : List CppPathItem
  deriving DecidableEq

/-- item.path().last().name. -/
def CppFfiItem.lastName (it : CppFfiItem) : String :=
  (it.path.getLastD { name := "" }).name

/-- crate_writer.rs fn run: the set of FFI function names referenced by
the emitted Rust items (collected into a HashSet in the source; the
list here is used only through membership). -/
def used_ffi_functions (rust_items : List RustItem) : List String :=
  rust_items.filterMap (fun item =>
    match item with
    | RustItem.FfiFunction func => some func.last
    | _ => none)

/-- crate_writer.rs fn run: the FFI items passed to native shim
generation: an item is kept when it is not a function or when its name
is referenced by the emitted Rust function set. -/
def filteredFfiItems (ffi_items : List CppFfiItem) (rust_items : List RustItem) :
    List CppFfiItem :=
  ffi_items.filter (fun item =>
    !item.is_function || (used_ffi_functions rust_items).contains item.lastName)

/-- C6: the ABI function items passed to native shim generation contain
no function whose name is unreferenced by the emitted target-language
function set, contain every ABI function item whose name is referenced
by it, and always retain non-function FFI items; nothing is added. -/
theorem ffi_filter_soundness (ffi_items : List CppFfiItem)
    (rust_items : List RustItem) :
    (∀ it ∈ filteredFfiItems ffi_items rust_items,
      it.is_function = true → it.lastName ∈ used_ffi_functions rust_items) ∧
    (∀ it ∈ ffi_items, it.lastName ∈ used_ffi_functions rust_items →
      it ∈ filteredFfiItems ffi_items rust_items) ∧
    (∀ it ∈ ffi_items, it.is_function = false →
      it ∈ filteredFfiItems ffi_items rust_items) ∧
    (∀ it ∈ filteredFfiItems ffi_items rust_items, it ∈ ffi_items) := by
  refine ⟨?_, ?_, ?_, ?_⟩
  · intro it hit hfun
    obtain ⟨hmem, hpred⟩ := List.mem_filter.mp hit
    rw [hfun] at hpred
    simp at hpred
    exact hpred
  · intro it hit hused
    refine List.mem_filter.mpr ⟨hit, ?_⟩
    simp
    exact Or.inr hused
  · intro it hit hfun
    refine List.mem_filter.mpr ⟨hit, ?_⟩
    simp [hfun]
  · intro it hit
    exact (List.mem_filter.mp hit).1

/-- Witness for C6 at a concrete model: a referenced function, an
unreferenced function and a non-function item. -/
theorem ffi_filter_soundness_witness :
    (({ is_function := true, path := [{ name := "used_fn" }] } : CppFfiItem) ∈
        [({ is_function := true, path := [{ name := "used_fn" }] } : CppFfiItem),
         { is_function := true, path := [{ name := "dead_fn" }] },
         { is_function := false, path := [{ name := "QPoint" }] }] ∧
      ({ is_function := true, path := [{ name := "used_fn" }] } : CppFfiItem).lastName ∈
        used_ffi_functions [RustItem.FfiFunction { parts := ["crate_x", "used_fn"] }] ∧
      ({ is_function := true, path := [{ name := "used_fn" }] } : CppFfiItem) ∈
        filteredFfiItems
          [{ is_function := true, path := [{ name := "used_fn" }] },
           { is_function := true, path := [{ name := "dead_fn" }] },
           { is_function := false, path := [{ name := "QPoint" }] }]
          [RustItem.FfiFunction { parts := ["crate_x", "used_fn"] }]) :=
  ⟨by decide, by decide,
    (ffi_filter_soundness
        [{ is_function := true, path := [{ name := "used_fn" }] },
         { is_function := true, path := [{ name := "dead_fn" }] },
         { is_function := false, path := [{ name := "QPoint" }] }]
        [RustItem.FfiFunction { parts := ["crate_x", "used_fn"] }]).2.1
      { is_function := true, path := [{ name := "used_fn" }] }
      (by decide) (by decide)⟩

/-- crate_writer.rs fn run, the clearing loop over read_dir: collects
the directory entries that are removed, skipping the entry equal to the
database path of the current crate. -/
def clear_output_dir (entries : List String) (database_path : String) :
    List String :=
  entries.foldl
    (fun removed path => if path = database_path then removed else removed ++ [path])
    []

theorem clear_output_dir_eq_filter (entries : List String) (db : String) :
    clear_output_dir entries db = entries.filter (fun p => p ≠ db) := by
  have hgen : ∀ (l : List String) (acc : List String),
      l.foldl (fun removed path =>
        if path = db then removed else removed ++ [path]) acc =
      acc ++ l.filter (fun p => p ≠ db) := by
    intro l
    induction l with
    | nil => intro acc; simp
    | cons p l ih =>
      intro acc
      by_cases hp : p = db
      · simp [List.foldl_cons, hp, ih]
      · simp [List.foldl_cons, hp, ih]
  simpa using hgen entries []

/-- C10: the clearing step removes every directory entry of the crate
output path except the database path, and the database path is never
removed. -/
theorem clear_output_dir_spec (entries : List String) (db : String) :
    (∀ p ∈ entries, p ≠ db → p ∈ clear_output_dir entries db) ∧
    (db ∉ clear_output_dir entries db) ∧
    (∀ p ∈ clear_output_dir entries db, p ∈ entries ∧ p ≠ db) := by
  rw [clear_output_dir_eq_filter]
  refine ⟨?_, ?_, ?_⟩
  · intro p hp hne
    exact List.mem_filter.mpr ⟨hp, by simp [hne]⟩
  · intro hmem
    have := (List.mem_filter.mp hmem).2
    simp at this
  · intro p hp
    obtain ⟨h1, h2⟩ := List.mem_filter.mp hp
    refine ⟨h1, ?_⟩
    simpa using h2

/-- Witness for C10 at a concrete directory listing. -/
theorem clear_output_dir_spec_witness :
    "src" ∈ ["src", "db.json", "Cargo.toml"] ∧ "src" ≠ "db.json" ∧
    "src" ∈ clear_output_dir ["src", "db.json", "Cargo.toml"] "db.json" ∧
    "db.json" ∉ clear_output_dir ["src", "db.json", "Cargo.toml"] "db.json" :=
  ⟨by decide, by decide,
    (clear_output_dir_spec ["src", "db.json", "Cargo.toml"] "db.json").1 "src"
      (by decide) (by decide),
    (clear_output_dir_spec ["src", "db.json", "Cargo.toml"] "db.json").2.1⟩

/-
Embedding of src/launcher.rs, fn run, the cached parse-result handling
(lines 257 to 286). The relevant filesystem state is explicit: the
cache argument is none when no cpp_data.json cache file exists, and
some r when the file exists, r being the outcome of deserializing it
(none when the snapshot fails to deserialize against the current
schema). fresh is the model the native front-end produces by parsing
the headers. The source calls unwrap on the deserialization result,
which panics on failure; a panic aborts the run and is modelled as a
none overall result.
-/

/-- launcher.rs fn run: obtain the parse result from the cache file
when it exists (unwrap of its deserialization), and only otherwise by
parsing the headers. -/
def obtain_parse_result (cache : Option (Option CppData)) (fresh : CppData) :
    Option CppData :=
  match cache with
  | some deserialized => deserialized
  | none => some fresh

/-- Counterexample to C7: with a cache file present whose snapshot
fails to deserialize, the run aborts (unwrap panics) instead of falling
back to re-parsing the headers. -/
theorem obtain_parse_result_counterexample :
    ¬(obtain_parse_result (some none) widgetModel = some widgetModel) := by
  simp [obtain_parse_result]

/-- C7 amended: when a cache file exists, its deserialized snapshot is
used unconditionally and a snapshot that fails to deserialize aborts
the run; the model is re-ingested from the native front-end only when
no cache file exists. -/
theorem obtain_parse_result_amended (fresh : CppData) :
    obtain_parse_result (some none) fresh = none ∧
    (∀ m, obtain_parse_result (some (some m)) fresh = some m) ∧
    obtain_parse_result none fresh = some fresh := by
  refine ⟨rfl, fun m => rfl, rfl⟩

/-
Embedding of ritual/src/rust_info.rs, RustFunctionCaptionStrategy.
-/

/-- rust_info.rs, RustFunctionCaptionStrategy: a method of generating
name suffixes for disambiguating multiple Rust methods with the same
name. -/
inductive RustFunctionCaptionStrategy where
  | SelfOnly
  | UnsafeOnly
  | SelfAndArgTypes
  | SelfAndArgNames
  | SelfAndIndex
  deriving DecidableEq

/-- rust_info.rs, RustFunctionCaptionStrategy::all: the list of all
available strategies sorted by priority, more preferred first. -/
def RustFunctionCaptionStrategy.all : List RustFunctionCaptionStrategy :=
  [RustFunctionCaptionStrategy.SelfOnly,
   RustFunctionCaptionStrategy.UnsafeOnly,
   RustFunctionCaptionStrategy.SelfAndArgTypes,
   RustFunctionCaptionStrategy.SelfAndArgNames,
   RustFunctionCaptionStrategy.SelfAndIndex]

/-- Modelled from the spec: the disambiguation loop that consumes the
strategy list is not under src/ (only the ordered list itself is). The
spec says the strategies are applied in priority order, stopping at the
first that yields globally unique names; ok s states that strategy s
yields globally unique names for the overload set at hand. -/
def firstWorkingStrategy (ok : RustFunctionCaptionStrategy → Bool) :
    Option RustFunctionCaptionStrategy :=
  RustFunctionCaptionStrategy.all.find? ok

/-- C8: the ordered list of caption strategies is exactly SelfOnly,
UnsafeOnly, SelfAndArgTypes, SelfAndArgNames, SelfAndIndex, and
disambiguation tries them in this order, stopping at the first
strategy that yields globally unique names. -/
theorem caption_strategy_priority (ok : RustFunctionCaptionStrategy → Bool) :
    RustFunctionCaptionStrategy.all =
      [RustFunctionCaptionStrategy.SelfOnly,
       RustFunctionCaptionStrategy.UnsafeOnly,
       RustFunctionCaptionStrategy.SelfAndArgTypes,
       RustFunctionCaptionStrategy.SelfAndArgNames,
       RustFunctionCaptionStrategy.SelfAndIndex] ∧
    firstWorkingStrategy ok =
      (if ok RustFunctionCaptionStrategy.SelfOnly then
        some RustFunctionCaptionStrategy.SelfOnly
       else if ok RustFunctionCaptionStrategy.UnsafeOnly then
        some RustFunctionCaptionStrategy.UnsafeOnly
       else if ok RustFunctionCaptionStrategy.SelfAndArgTypes then
        some RustFunctionCaptionStrategy.SelfAndArgTypes
       else if ok RustFunctionCaptionStrategy.SelfAndArgNames then
        some RustFunctionCaptionStrategy.SelfAndArgNames
       else if ok RustFunctionCaptionStrategy.SelfAndIndex then
        some RustFunctionCaptionStrategy.SelfAndIndex
       else none) := by
  refine ⟨rfl, ?_⟩
  unfold firstWorkingStrategy RustFunctionCaptionStrategy.all
  cases h1 : ok RustFunctionCaptionStrategy.SelfOnly <;>
    cases h2 : ok RustFunctionCaptionStrategy.UnsafeOnly <;>
      cases h3 : ok RustFunctionCaptionStrategy.SelfAndArgTypes <;>
        cases h4 : ok RustFunctionCaptionStrategy.SelfAndArgNames <;>
          cases h5 : ok RustFunctionCaptionStrategy.SelfAndIndex <;>
            simp [List.find?, h1, h2, h3, h4, h5]

end Ritual
